import Mathlib

/-!
# Theme constant `common`

Verification development for `client/js/app/src/app/styles/theme/common.js`.
The module consists of one statement, `export const common = { ... }`, whose
right-hand side is an object literal built from numbers, strings and nested
object literals.  The literal is embedded as a value of `JsVal`; objects are
association lists, so the declaration order of the keys is part of the value.
-/

namespace Theme

/-- A JavaScript decimal numeric literal: `mantissa * 10 ^ (-decimals)`.
The literal `6` is `⟨6, 0⟩` and the literal `1.5` is `⟨15, 1⟩`. -/
structure JsNum where
  mantissa : Int
  decimals : Nat
deriving DecidableEq

instance (n : Nat) : OfNat JsNum n := ⟨⟨Int.ofNat n, 0⟩⟩

instance : OfScientific JsNum :=
  ⟨fun m s e => if s then ⟨Int.ofNat m, e⟩ else ⟨Int.ofNat (m * 10 ^ e), 0⟩⟩

/-- The integer denoted by a numeric literal, when it denotes one. -/
def JsNum.toInt? (n : JsNum) : Option Int :=
  if n.mantissa % (10 : Int) ^ n.decimals = 0 then
    some (n.mantissa / (10 : Int) ^ n.decimals)
  else none

/-- Values an object literal of the module can denote. -/
inductive JsVal where
  | num (n : JsNum)
  | str (s : String)
  | obj (fields : List (String × JsVal))

namespace JsVal

/-- Own property names of an object, in declaration order (`Object.keys`);
`none` when the value is not an object. -/
def keys? : JsVal → Option (List String)
  | obj fields => some (fields.map Prod.fst)
  | _ => none

/-- Property access `v[k]`; `none` when `v` is not an object or has no own
property `k`. -/
def get? : JsVal → String → Option JsVal
  | obj fields, k => fields.lookup k
  | _, _ => none

/-- Access along a path of property names, `v[k₁][k₂]...`. -/
def getPath? : JsVal → List String → Option JsVal
  | v, [] => some v
  | v, k :: ks => (v.get? k).bind fun w => getPath? w ks

/-- The string a value is, when it is a string. -/
def asStr? : JsVal → Option String
  | str s => some s
  | _ => none

/-- The integer a value is, when it is an integral number. -/
def asInt? : JsVal → Option Int
  | num n => n.toInt?
  | _ => none

/-- The entries of an object all of whose values are integral numbers, in
declaration order; `none` for any other value. -/
def intEntries? : JsVal → Option (List (String × Int))
  | obj fields => fields.mapM fun kv => (asInt? kv.2).map fun i => (kv.1, i)
  | _ => none

end JsVal

open JsVal

/-- The object literal exported by `common.js`, field for field. -/
def common : JsVal :=
  .obj [
    ("primaryShade", .num 6),
    ("loader", .str "oval"),
    ("white", .str "#fff"),
    ("black", .str "#303030"),
    ("defaultRadius", .str "xs"),
    ("primaryColor", .str "blue"),
    ("lineHeight", .num 1.5),
    ("fontFamily", .str "Lato, sans-serif"),
    ("shadows", .obj [
      ("xs", .str "0 1px 3px rgba(0, 0, 0, 0.05), 0 1px 2px rgba(0, 0, 0, 0.1)"),
      ("sm", .str "0 1px 3px rgba(0, 0, 0, 0.05), rgba(0, 0, 0, 0.05) 0px 10px 15px -5px, rgba(0, 0, 0, 0.04) 0px 7px 7px -5px"),
      ("md", .str "0 1px 3px rgba(0, 0, 0, 0.05), rgba(0, 0, 0, 0.05) 0px 20px 25px -5px, rgba(0, 0, 0, 0.04) 0px 10px 10px -5px"),
      ("lg", .str "0 1px 3px rgba(0, 0, 0, 0.05), rgba(0, 0, 0, 0.05) 0px 28px 23px -7px, rgba(0, 0, 0, 0.04) 0px 12px 12px -7px"),
      ("xl", .str "0 1px 3px rgba(0, 0, 0, 0.05), rgba(0, 0, 0, 0.05) 0px 36px 28px -7px, rgba(0, 0, 0, 0.04) 0px 17px 17px -7px")]),
    ("fontSizes", .obj [("xs", .num 12), ("sm", .num 14), ("md", .num 16), ("lg", .num 18), ("xl", .num 20)]),
    ("radius", .obj [("xs", .num 5), ("sm", .num 8), ("md", .num 13), ("lg", .num 21), ("xl", .num 34)]),
    ("spacing", .obj [("xs", .num 5), ("sm", .num 8), ("md", .num 13), ("lg", .num 21), ("xl", .num 34)]),
    ("breakpoints", .obj [("xs", .num 576), ("sm", .num 768), ("md", .num 992), ("lg", .num 1200), ("xl", .num 1400)]),
    ("headings", .obj [
      ("fontFamily", .str "Lato, sans-serif"),
      ("sizes", .obj [
        ("h1", .obj [("fontSize", .str "1.5rem")]),
        ("h2", .obj [("fontSize", .str "1.3333rem")]),
        ("h3", .obj [("fontSize", .str "1.125rem")]),
        ("h4", .obj [("fontSize", .str "1rem")]),
        ("h5", .obj [("fontSize", .str "0.9375rem")]),
        ("h6", .obj [("fontSize", .str "0.875rem")])])]),
    ("other", .obj []),
    ("datesLocale", .str "en"),
    ("fn", .obj [])]

/-- The size keys, in the order the source declares them. -/
def sizeKeys : List String := ["xs", "sm", "md", "lg", "xl"]

/-- The keys of the mapping stored under field `m` of `common`. -/
def keysOf (m : String) : Option (List String) :=
  (common.get? m).bind JsVal.keys?

/-- The integer entries of the mapping stored under field `m` of `common`. -/
def intEntriesOf (m : String) : Option (List (String × Int)) :=
  (common.get? m).bind JsVal.intEntries?

/-- The value found in `common.radius` under the key named by
`common.defaultRadius`. -/
def defaultRadiusValue : Option JsVal :=
  ((common.get? "defaultRadius").bind JsVal.asStr?).bind fun k =>
    (common.get? "radius").bind fun r => r.get? k


/-- The numeric mapping `m` of `common` has the five size keys in order, and
its integer values are positive and strictly increasing along that order:
`Pairwise` relates every earlier entry to every later one. -/
def StrictlyIncreasing (m : String) : Prop :=
  ∃ es : List (String × Int), intEntriesOf m = some es ∧ es.map Prod.fst = sizeKeys ∧
    (es.map Prod.snd).Pairwise (fun a b => a < b) ∧ ∀ v ∈ es.map Prod.snd, 0 < v


/-! ## JSON text

The module has no serializer of its own; the round trip is stated for the
JSON text format, in the compact form `JSON.stringify` produces (no white
space).  Texts are lists of characters. -/

namespace Json

/-- The double quote character. -/
def quote : Char := Char.ofNat 34

/-- The reverse solidus. -/
def backslash : Char := Char.ofNat 92

/-- The opening brace. -/
def lbrace : Char := Char.ofNat 123

/-- The closing brace. -/
def rbrace : Char := Char.ofNat 125

/-- The decimal digit character of `n % 10`. -/
def digitChar (n : Nat) : Char := Char.ofNat (48 + n % 10)

/-- The last `k` decimal digits of `n`, most significant first. -/
def fixedDigits : Nat → Nat → List Char
  | 0, _ => []
  | k + 1, n => fixedDigits k (n / 10) ++ [digitChar n]

/-- Number of decimal digits of `n` (at least one); `fuel` bounds the count. -/
def numDigits : Nat → Nat → Nat
  | 0, _ => 1
  | fuel + 1, n => if n < 10 then 1 else numDigits fuel (n / 10) + 1

/-- The decimal digits of `n`, without leading zeros. -/
def writeNat (n : Nat) : List Char := fixedDigits (numDigits n n) n

/-- A number: optional minus sign, integer part, and when the literal has
decimals a point followed by exactly that many digits. -/
def writeNum (n : JsNum) : List Char :=
  (if n.mantissa < 0 then ['-'] else []) ++
    (writeNat (n.mantissa.natAbs / 10 ^ n.decimals) ++
      (if n.decimals = 0 then []
       else '.' :: fixedDigits n.decimals (n.mantissa.natAbs % 10 ^ n.decimals)))

/-- The lower-case hexadecimal digit character of `n % 16`. -/
def hexChar (n : Nat) : Char :=
  if n % 16 < 10 then Char.ofNat (48 + n % 16) else Char.ofNat (87 + n % 16)

/-- One character of a string: quote and reverse solidus are escaped with a
reverse solidus, control characters are written as a `u` escape with four
hexadecimal digits, any other character stands for itself. -/
def escapeChar (c : Char) : List Char :=
  if c = quote ∨ c = backslash then [backslash, c]
  else if c.toNat < 32 then
    [backslash, 'u', '0', '0', hexChar (c.toNat / 16), hexChar c.toNat]
  else [c]

/-- The characters of a string, escaped. -/
def escape : List Char → List Char
  | [] => []
  | c :: cs => escapeChar c ++ escape cs

/-- A string between double quotes. -/
def writeStr (s : String) : List Char :=
  quote :: (escape s.data ++ [quote])

mutual
/-- The JSON text of a value. -/
def write : JsVal → List Char
  | .num n => writeNum n
  | .str s => writeStr s
  | .obj fields => lbrace :: (writeFields fields ++ [rbrace])
/-- The members of an object, separated by commas, in declaration order. -/
def writeFields : List (String × JsVal) → List Char
  | [] => []
  | [(k, v)] => writeStr k ++ ':' :: write v
  | (k, v) :: f :: rest => writeStr k ++ ':' :: (write v ++ ',' :: writeFields (f :: rest))
end

/-- The value of a decimal digit character. -/
def digitVal? (c : Char) : Option Nat :=
  if 48 ≤ c.toNat ∧ c.toNat ≤ 57 then some (c.toNat - 48) else none

/-- The value of a lower-case hexadecimal digit character. -/
def hexVal? (c : Char) : Option Nat :=
  if 48 ≤ c.toNat ∧ c.toNat ≤ 57 then some (c.toNat - 48)
  else if 97 ≤ c.toNat ∧ c.toNat ≤ 102 then some (c.toNat - 87)
  else none

/-- Reads the longest run of decimal digits: the value accumulated onto
`acc`, the number of digits read added to `k`, and the rest of the input. -/
def readDigits : List Char → Nat → Nat → Nat × Nat × List Char
  | [], acc, k => (acc, k, [])
  | c :: cs, acc, k =>
    match digitVal? c with
    | some d => readDigits cs (acc * 10 + d) (k + 1)
    | none => (acc, k, c :: cs)

/-- Reads an unsigned decimal literal, `digits` or `digits.digits`. -/
def readUnsigned (cs : List Char) : Option (JsNum × List Char) :=
  match readDigits cs 0 0 with
  | (_, 0, _) => none
  | (ip, _ + 1, '.' :: r) =>
    match readDigits r 0 0 with
    | (_, 0, _) => none
    | (fp, k + 1, r') => some (⟨Int.ofNat (ip * 10 ^ (k + 1) + fp), k + 1⟩, r')
  | (ip, _ + 1, r) => some (⟨Int.ofNat ip, 0⟩, r)

/-- Reads a decimal literal with an optional leading minus sign. -/
def readNum : List Char → Option (JsNum × List Char)
  | [] => none
  | c :: cs =>
    if c = '-' then
      (readUnsigned cs).map fun p => (⟨-p.1.mantissa, p.1.decimals⟩, p.2)
    else readUnsigned (c :: cs)

/-- Reads the characters of a string up to its closing quote, undoing the
escapes; `acc` holds the characters read so far, last first. -/
def readStrBody : List Char → List Char → Option (List Char × List Char)
  | [], _ => none
  | c :: cs, acc =>
    if c = quote then some (acc.reverse, cs)
    else if c = backslash then
      match cs with
      | [] => none
      | e :: rest =>
        if e = quote ∨ e = backslash then readStrBody rest (e :: acc)
        else if e = 'u' then
          match rest with
          | a :: b :: x :: y :: rest' =>
            match hexVal? a, hexVal? b, hexVal? x, hexVal? y with
            | some a, some b, some x, some y =>
              readStrBody rest' (Char.ofNat (((a * 16 + b) * 16 + x) * 16 + y) :: acc)
            | _, _, _, _ => none
          | _ => none
        else none
    else readStrBody cs (c :: acc)

mutual
/-- Reads one value; `fuel` bounds the number of nested calls. -/
def readValue : Nat → List Char → Option (JsVal × List Char)
  | 0, _ => none
  | _ + 1, [] => none
  | fuel + 1, c :: cs =>
    if c = quote then
      (readStrBody cs []).map fun p => (.str (String.mk p.1), p.2)
    else if c = lbrace then
      match cs with
      | [] => none
      | d :: cs1 =>
        if d = rbrace then some (.obj [], cs1)
        else (readFields fuel (d :: cs1)).map fun p => (.obj p.1, p.2)
    else (readNum (c :: cs)).map fun p => (.num p.1, p.2)
/-- Reads the members of a non-empty object up to and including the closing
brace. -/
def readFields : Nat → List Char → Option (List (String × JsVal) × List Char)
  | 0, _ => none
  | _ + 1, [] => none
  | fuel + 1, q :: cs =>
    if q = quote then
      match readStrBody cs [] with
      | some (k, c :: cs1) =>
        if c = ':' then
          match readValue fuel cs1 with
          | some (v, d :: cs2) =>
            if d = rbrace then some ([(String.mk k, v)], cs2)
            else if d = ',' then
              (readFields fuel cs2).map fun p => ((String.mk k, v) :: p.1, p.2)
            else none
          | _ => none
        else none
      | _ => none
    else none
end

/-- Modelled from the spec: the serializer of the round-trip property, which
the module does not contain.  A value is written as compact JSON text. -/
def serialize (v : JsVal) : String := String.mk (write v)

/-- Modelled from the spec: the deserializer of the round-trip property,
which the module does not contain.  The whole text must be one value; the
length of the text is fuel enough for every text the writer produces. -/
def deserialize (s : String) : Option JsVal :=
  match readValue s.data.length s.data with
  | some (v, []) => some v
  | _ => none

/-- A rest of input at which a number ends: it is empty or starts with a
character that is neither a digit nor the decimal point. -/
def NumEnd (rest : List Char) : Prop :=
  ∀ c ∈ rest.head?, digitVal? c = none ∧ c ≠ '.'

mutual
/-- Fuel that suffices to read back the text of a value. -/
def size : JsVal → Nat
  | .num _ => 1
  | .str _ => 1
  | .obj fields => sizeFields fields + 1
/-- Fuel that suffices to read back the members of an object. -/
def sizeFields : List (String × JsVal) → Nat
  | [] => 0
  | (_, v) :: rest => size v + sizeFields rest + 1
end

end Json

/-! ## Mutation -/

/-- A value on the heap: a `JsVal` in which every object also records
whether `Object.freeze` has been applied to it. -/
inductive HeapVal where
  | num (n : JsNum)
  | str (s : String)
  | obj (frozen : Bool) (fields : List (String × HeapVal))

mutual
/-- Evaluation of a literal: each object literal creates an ordinary object,
which is not frozen. -/
def alloc : JsVal → HeapVal
  | .num n => .num n
  | .str s => .str s
  | .obj fields => .obj false (allocFields fields)
/-- Evaluation of the property definitions of an object literal. -/
def allocFields : List (String × JsVal) → List (String × HeapVal)
  | [] => []
  | (k, v) :: rest => (k, alloc v) :: allocFields rest
end

mutual
/-- The value a reader sees in a heap value. -/
def HeapVal.view : HeapVal → JsVal
  | .num n => .num n
  | .str s => .str s
  | .obj _ fields => .obj (viewFields fields)
/-- The fields a reader sees in the fields of a heap object. -/
def viewFields : List (String × HeapVal) → List (String × JsVal)
  | [] => []
  | (k, v) :: rest => (k, v.view) :: viewFields rest
end

/-- The fields of an object after the write `o[k] = w` to an own property
`k`: the value is overwritten in place and the key order is kept.  The result
is `none` when `k` is not an own property: what the write does then (an
accessor inherited from the prototype, as for `__proto__`, or where a new key
is listed) depends on state outside this model. -/
def setField : List (String × HeapVal) → String → HeapVal →
    Option (List (String × HeapVal))
  | [], _, _ => none
  | (k', u) :: rest, k, w =>
    if k' = k then some ((k', w) :: rest)
    else (setField rest k w).map fun r => (k', u) :: r

mutual
/-- The heap value after the assignment `v.k₁. ... .kₙ = w`, for a path of
own properties.  The own property `kₙ` of the object reached by `k₁ ... kₙ₋₁`
is overwritten, unless that object is frozen: then the write fails and
everything stays as it was.  The result is `none` when the path is empty,
leaves the own properties or runs into a primitive: those assignments are
outside this model. -/
def HeapVal.assign : HeapVal → List String → HeapVal → Option HeapVal
  | _, [], _ => none
  | .obj frozen fields, [k], w =>
    (setField fields k w).map fun fs =>
      if frozen then .obj frozen fields else .obj frozen fs
  | .obj frozen fields, k :: k' :: ks, w =>
    (assignIn fields k (k' :: ks) w).map fun fs => .obj frozen fs
  | _, _ :: _, _ => none
/-- The assignment `o.k.ks = w` carried out in the fields of `o`; `none` when
`k` is not an own property of `o`. -/
def assignIn : List (String × HeapVal) → String → List String → HeapVal →
    Option (List (String × HeapVal))
  | [], _, _, _ => none
  | (k', u) :: rest, k, ks, w =>
    if k' = k then (u.assign ks w).map fun u' => (k', u') :: rest
    else (assignIn rest k ks w).map fun r => (k', u) :: r
end

/-- The export binding of the module once its body has run. -/
structure Binding where
  isConst : Bool
  value : HeapVal

/-- The module body `export const common = { ... };`: one `const` binding
holding the object the literal creates.  The body has no other statement. -/
def moduleBinding : Binding := ⟨true, alloc common⟩

/-- What code holding the binding can do with it. -/
inductive Action where
  /-- The expression `common.k₁. ... .kₙ`. -/
  | read (path : List String)
  /-- The assignment `common = w`. -/
  | rebind (w : HeapVal)
  /-- The assignment `common.k₁. ... .kₙ = w`. -/
  | assign (path : List String) (w : HeapVal)

/-- The binding after one action; `none` for a property assignment outside
the model.  Assignment to a `const` binding throws and leaves the binding as
it was. -/
def step (b : Binding) : Action → Option Binding
  | .read _ => some b
  | .rebind w => if b.isConst then some b else some { b with value := w }
  | .assign path w => (b.value.assign path w).map fun v => { b with value := v }

/-- The binding after a sequence of actions. -/
def run (b : Binding) : List Action → Option Binding
  | [] => some b
  | a :: as => (step b a).bind fun b' => run b' as

/-- An action that writes a property. -/
def Action.isAssign : Action → Bool
  | .assign _ _ => true
  | _ => false

/-- No action changes what a reader sees in the binding. -/
def ReadOnly (b : Binding) : Prop :=
  ∀ (a : Action) (b' : Binding), step b a = some b' → b'.value.view = b.value.view

/-! ## Theorems -/

/-! ### The reader inverts the writer -/

namespace Json

theorem digitVal?_ofNat : ∀ m, m < 10 → digitVal? (Char.ofNat (48 + m)) = some m := by
  decide

theorem digitVal?_digitChar (n : Nat) : digitVal? (digitChar n) = some (n % 10) :=
  digitVal?_ofNat _ (Nat.mod_lt _ (by decide))

theorem readDigits_fixedDigits (k : Nat) : ∀ (n : Nat) (rest : List Char) (acc j : Nat),
    readDigits (fixedDigits k n ++ rest) acc j =
      readDigits rest (acc * 10 ^ k + n % 10 ^ k) (j + k) := by
  induction k with
  | zero => intro n rest acc j; simp [fixedDigits, Nat.mod_one]
  | succ k ih =>
    intro n rest acc j
    have hmod : n % 10 ^ (k + 1) = (n / 10 % 10 ^ k) * 10 + n % 10 := by
      rw [pow_succ, Nat.mul_comm (10 ^ k) 10, Nat.mod_mul]
      ring
    rw [fixedDigits, List.append_assoc, ih]
    simp only [List.singleton_append, readDigits, digitVal?_digitChar]
    rw [hmod, pow_succ]
    congr 1
    ring

theorem readDigits_of_numEnd (rest : List Char) (h : NumEnd rest) (acc k : Nat) :
    readDigits rest acc k = (acc, k, rest) := by
  cases rest with
  | nil => rfl
  | cons c cs =>
    have hc := (h c (by simp)).1
    simp [readDigits, hc]

theorem lt_pow_numDigits (fuel : Nat) : ∀ n, n ≤ fuel → n < 10 ^ numDigits fuel n := by
  induction fuel with
  | zero => intro n hn; simp [numDigits]; omega
  | succ fuel ih =>
    intro n hn
    unfold numDigits
    split
    · simpa using ‹n < 10›
    · have h := ih (n / 10) (by omega)
      rw [pow_succ]
      omega

theorem numDigits_pos (fuel n : Nat) : 0 < numDigits fuel n := by
  cases fuel with
  | zero => simp [numDigits]
  | succ fuel => unfold numDigits; split <;> omega

theorem fixedDigits_succ_head (k : Nat) : ∀ n,
    fixedDigits (k + 1) n = digitChar (n / 10 ^ k) :: fixedDigits k n := by
  induction k with
  | zero => intro n; simp [fixedDigits]
  | succ k ih =>
    intro n
    rw [fixedDigits, ih, fixedDigits, pow_succ, Nat.div_div_eq_div_mul, Nat.mul_comm 10]
    rfl

theorem writeNat_head (n : Nat) : ∃ d cs, writeNat n = digitChar d :: cs := by
  unfold writeNat
  obtain ⟨k, hk⟩ := Nat.exists_eq_succ_of_ne_zero (Nat.pos_iff_ne_zero.mp (numDigits_pos n n))
  rw [hk, fixedDigits_succ_head]
  exact ⟨_, _, rfl⟩

theorem readDigits_writeNat (n : Nat) (rest : List Char) :
    readDigits (writeNat n ++ rest) 0 0 = readDigits rest n (numDigits n n) := by
  unfold writeNat
  rw [readDigits_fixedDigits, Nat.mod_eq_of_lt (lt_pow_numDigits n n (Nat.le_refl n))]
  simp

theorem digitVal?_point : digitVal? '.' = none := by decide

theorem readUnsigned_write (a d : Nat) (rest : List Char) (h : NumEnd rest) :
    readUnsigned (writeNat (a / 10 ^ d) ++
      ((if d = 0 then [] else '.' :: fixedDigits d (a % 10 ^ d)) ++ rest)) =
      some (⟨Int.ofNat a, d⟩, rest) := by
  obtain ⟨k, hk⟩ := Nat.exists_eq_succ_of_ne_zero
    (Nat.pos_iff_ne_zero.mp (numDigits_pos (a / 10 ^ d) (a / 10 ^ d)))
  unfold readUnsigned
  rw [readDigits_writeNat, hk]
  cases d with
  | zero =>
    simp only [if_true, List.nil_append, pow_zero, Nat.div_one]
    rw [readDigits_of_numEnd rest h]
    cases rest with
    | nil => rfl
    | cons c cs =>
      have hc := (h c (by simp)).2
      simp [hc]
  | succ d =>
    simp only [Nat.succ_ne_zero, if_false, List.cons_append]
    simp only [readDigits, digitVal?_point]
    rw [readDigits_fixedDigits, readDigits_of_numEnd rest h]
    simp only [Nat.zero_mul, Nat.zero_add, Nat.mod_mod]
    have : a / 10 ^ (d + 1) * 10 ^ (d + 1) + a % 10 ^ (d + 1) = a := Nat.div_add_mod' a _
    simp [this]

theorem digitChar_ne : ∀ m, m < 10 → Char.ofNat (48 + m) ≠ '-' ∧
    Char.ofNat (48 + m) ≠ quote ∧ Char.ofNat (48 + m) ≠ lbrace := by
  decide

theorem readNum_writeNum (n : JsNum) (rest : List Char) (h : NumEnd rest) :
    readNum (writeNum n ++ rest) = some (n, rest) := by
  obtain ⟨m, d⟩ := n
  unfold writeNum
  simp only [List.append_assoc]
  by_cases hm : m < 0
  · simp only [hm, if_true, List.singleton_append, readNum]
    rw [readUnsigned_write _ _ _ h]
    simp only [Option.map_some', JsNum.mk.injEq, and_true, Option.some.injEq, Prod.mk.injEq]
    simp only [Int.ofNat_eq_coe]
    omega
  · simp only [hm, if_false, List.nil_append]
    have hr := readUnsigned_write m.natAbs d rest h
    obtain ⟨x, cs, hx⟩ := writeNat_head (m.natAbs / 10 ^ d)
    rw [hx] at hr ⊢
    simp only [List.cons_append] at hr ⊢
    have hne := (digitChar_ne (x % 10) (Nat.mod_lt _ (by decide))).1
    simp only [readNum, digitChar, hne, if_false]
    simp only [digitChar] at hr
    rw [hr]
    simp only [Option.some.injEq, Prod.mk.injEq, JsNum.mk.injEq, and_true, Int.ofNat_eq_coe]
    omega

theorem hexVal?_ofNat : ∀ m, m < 16 →
    hexVal? (if m < 10 then Char.ofNat (48 + m) else Char.ofNat (87 + m)) = some m := by
  decide

theorem hexVal?_hexChar (n : Nat) : hexVal? (hexChar n) = some (n % 16) :=
  hexVal?_ofNat _ (Nat.mod_lt _ (by decide))

theorem readStrBody_cons (c : Char) (cs acc : List Char) :
    readStrBody (c :: cs) acc =
      if c = quote then some (acc.reverse, cs)
      else if c = backslash then
        match cs with
        | [] => none
        | e :: rest =>
          if e = quote ∨ e = backslash then readStrBody rest (e :: acc)
          else if e = 'u' then
            match rest with
            | a :: b :: x :: y :: rest1 =>
              match hexVal? a, hexVal? b, hexVal? x, hexVal? y with
              | some a, some b, some x, some y =>
                readStrBody rest1 (Char.ofNat (((a * 16 + b) * 16 + x) * 16 + y) :: acc)
              | _, _, _, _ => none
            | _ => none
          else none
      else readStrBody cs (c :: acc) := by
  rw [readStrBody.eq_def]

theorem readStrBody_escape (s : List Char) (rest : List Char) : ∀ acc : List Char,
    readStrBody (escape s ++ quote :: rest) acc = some (acc.reverse ++ s, rest) := by
  induction s with
  | nil => intro acc; simp [escape, readStrBody_cons]
  | cons c s ih =>
    intro acc
    have hbq : backslash ≠ quote := by decide
    have huq : ¬ ('u' = quote ∨ 'u' = backslash) := by decide
    have h0 : hexVal? '0' = some 0 := by decide
    unfold escape escapeChar
    split
    · rename_i hc
      simp only [List.cons_append, List.nil_append, readStrBody_cons, hbq, if_false, if_true, hc]
      rw [ih]
      simp
    · rename_i hc
      have hcq : c ≠ quote := fun e => hc (Or.inl e)
      have hcb : c ≠ backslash := fun e => hc (Or.inr e)
      split
      · rename_i hlt
        have hval : ((0 * 16 + 0) * 16 + c.toNat / 16 % 16) * 16 + c.toNat % 16 = c.toNat := by
          omega
        simp only [List.cons_append, List.nil_append, readStrBody_cons, hbq, if_false, if_true,
          huq, h0, hexVal?_hexChar, hval, Char.ofNat_toNat]
        rw [ih]
        simp
      · simp only [List.cons_append, List.nil_append, readStrBody_cons, hcq, hcb, if_false]
        rw [ih]
        simp

theorem readValue_succ_cons (fuel : Nat) (c : Char) (cs : List Char) :
    readValue (fuel + 1) (c :: cs) =
      if c = quote then
        (readStrBody cs []).map fun p => (.str (String.mk p.1), p.2)
      else if c = lbrace then
        match cs with
        | [] => none
        | d :: cs1 =>
          if d = rbrace then some (.obj [], cs1)
          else (readFields fuel (d :: cs1)).map fun p => (.obj p.1, p.2)
      else (readNum (c :: cs)).map fun p => (.num p.1, p.2) := by
  rw [readValue.eq_def]

theorem readFields_succ_cons (fuel : Nat) (q : Char) (cs : List Char) :
    readFields (fuel + 1) (q :: cs) =
      if q = quote then
        match readStrBody cs [] with
        | some (k, c :: cs1) =>
          if c = ':' then
            match readValue fuel cs1 with
            | some (v, d :: cs2) =>
              if d = rbrace then some ([(String.mk k, v)], cs2)
              else if d = ',' then
                (readFields fuel cs2).map fun p => ((String.mk k, v) :: p.1, p.2)
              else none
            | _ => none
          else none
        | _ => none
      else none := by
  rw [readFields.eq_def]

theorem writeNum_head (n : JsNum) :
    ∃ c cs, writeNum n = c :: cs ∧ c ≠ quote ∧ c ≠ lbrace := by
  unfold writeNum
  by_cases hm : n.mantissa < 0
  · simp only [hm, if_true, List.singleton_append]
    exact ⟨_, _, rfl, by decide, by decide⟩
  · obtain ⟨x, cs, hx⟩ := writeNat_head (n.mantissa.natAbs / 10 ^ n.decimals)
    have hne := digitChar_ne (x % 10) (Nat.mod_lt _ (by decide))
    simp only [hm, if_false, List.nil_append, hx, List.cons_append]
    exact ⟨_, _, rfl, hne.2.1, hne.2.2⟩

theorem numEnd_rbrace (rest : List Char) : NumEnd (rbrace :: rest) := by
  intro c hc
  simp only [List.head?_cons, Option.mem_def, Option.some.injEq] at hc
  subst hc
  decide

theorem numEnd_comma (rest : List Char) : NumEnd (',' :: rest) := by
  intro c hc
  simp only [List.head?_cons, Option.mem_def, Option.some.injEq] at hc
  subst hc
  decide

theorem readStrBody_writeStr (k : String) (rest : List Char) :
    ∃ cs, writeStr k ++ rest = quote :: cs ∧ readStrBody cs [] = some (k.data, rest) := by
  refine ⟨escape k.data ++ quote :: rest, ?_, ?_⟩
  · simp [writeStr]
  · simpa using readStrBody_escape k.data rest []

mutual
theorem readValue_write : ∀ (v : JsVal) (fuel : Nat) (rest : List Char),
    size v ≤ fuel → NumEnd rest → readValue fuel (write v ++ rest) = some (v, rest)
  | .num n, fuel, rest, hf, hr => by
    obtain ⟨f, rfl⟩ : ∃ f, fuel = f + 1 := ⟨fuel - 1, by simp [size] at hf; omega⟩
    obtain ⟨c, cs, hw, hq, hl⟩ := writeNum_head n
    have hnum := readNum_writeNum n rest hr
    simp only [write]
    rw [hw] at hnum ⊢
    simp only [List.cons_append] at hnum ⊢
    rw [readValue_succ_cons]
    simp [hq, hl, hnum]
  | .str s, fuel, rest, hf, _ => by
    obtain ⟨f, rfl⟩ : ∃ f, fuel = f + 1 := ⟨fuel - 1, by simp [size] at hf; omega⟩
    obtain ⟨cs, hw, hread⟩ := readStrBody_writeStr s rest
    simp only [write]
    rw [hw, readValue_succ_cons]
    simp [hread]
  | .obj [], fuel, rest, hf, _ => by
    obtain ⟨f, rfl⟩ : ∃ f, fuel = f + 1 := ⟨fuel - 1, by simp [size] at hf; omega⟩
    have hlq : lbrace ≠ quote := by decide
    simp only [write, writeFields, List.nil_append, List.cons_append]
    rw [readValue_succ_cons]
    simp [hlq]
  | .obj (p :: fs), fuel, rest, hf, _ => by
    obtain ⟨f, rfl⟩ : ∃ f, fuel = f + 1 := ⟨fuel - 1, by simp [size] at hf; omega⟩
    have hlq : lbrace ≠ quote := by decide
    have hqr : quote ≠ rbrace := by decide
    have hfs := readFields_write (p :: fs) f rest (by simp) (by simp [size] at hf; omega)
    obtain ⟨cs, hcs⟩ : ∃ cs, writeFields (p :: fs) = quote :: cs := by
      obtain ⟨k, v⟩ := p
      cases fs with
      | nil => exact ⟨_, rfl⟩
      | cons g gs => exact ⟨_, rfl⟩
    simp only [write, List.cons_append, List.append_assoc, List.singleton_append]
    rw [hcs] at hfs ⊢
    simp only [List.cons_append] at hfs ⊢
    rw [readValue_succ_cons]
    simp [hlq, hqr, hfs]
theorem readFields_write : ∀ (fs : List (String × JsVal)) (fuel : Nat) (rest : List Char),
    fs ≠ [] → sizeFields fs ≤ fuel →
    readFields fuel (writeFields fs ++ rbrace :: rest) = some (fs, rest)
  | [], _, _, h, _ => absurd rfl h
  | [(k, v)], fuel, rest, _, hf => by
    obtain ⟨f, rfl⟩ : ∃ f, fuel = f + 1 := ⟨fuel - 1, by simp [sizeFields] at hf; omega⟩
    have hv := readValue_write v f (rbrace :: rest) (by simp [sizeFields] at hf; omega)
      (numEnd_rbrace rest)
    obtain ⟨cs, hw, hread⟩ := readStrBody_writeStr k (':' :: (write v ++ rbrace :: rest))
    simp only [writeFields, List.append_assoc, List.cons_append]
    rw [hw, readFields_succ_cons]
    simp [hread, hv]
  | (k, v) :: g :: gs, fuel, rest, _, hf => by
    obtain ⟨f, rfl⟩ : ∃ f, fuel = f + 1 := ⟨fuel - 1, by simp [sizeFields] at hf; omega⟩
    have hcr : ',' ≠ rbrace := by decide
    have hv := readValue_write v f (',' :: (writeFields (g :: gs) ++ rbrace :: rest))
      (by simp [sizeFields] at hf; omega) (numEnd_comma _)
    have hfs := readFields_write (g :: gs) f rest (by simp)
      (by simp [sizeFields] at hf ⊢; omega)
    obtain ⟨cs, hw, hread⟩ := readStrBody_writeStr k
      (':' :: (write v ++ ',' :: (writeFields (g :: gs) ++ rbrace :: rest)))
    simp only [writeFields, List.append_assoc, List.cons_append]
    rw [hw, readFields_succ_cons]
    simp [hread, hv, hcr, hfs]
end

mutual
theorem size_le_length_write : ∀ v : JsVal, size v ≤ (write v).length
  | .num n => by
    obtain ⟨c, cs, hw, _⟩ := writeNum_head n
    simp [size, write, hw]
  | .str s => by simp [size, write, writeStr]
  | .obj fs => by
    have h := sizeFields_le_length_writeFields fs
    simp only [size, write, List.length_cons, List.length_append, List.length_nil]
    omega
theorem sizeFields_le_length_writeFields :
    ∀ fs : List (String × JsVal), sizeFields fs ≤ (writeFields fs).length
  | [] => by simp [sizeFields]
  | [(k, v)] => by
    have h := size_le_length_write v
    simp only [sizeFields, writeFields, writeStr, List.length_cons, List.length_append,
      List.length_nil]
    omega
  | (k, v) :: g :: gs => by
    have h := size_le_length_write v
    have hfs := sizeFields_le_length_writeFields (g :: gs)
    simp only [sizeFields, writeFields, writeStr, List.length_cons, List.length_append,
      List.length_nil] at hfs ⊢
    omega
end

/-- Round trip for every value: the reader recovers the value from the text
the writer produces for it. -/
theorem deserialize_serialize (v : JsVal) : deserialize (serialize v) = some v := by
  have h := readValue_write v (write v).length [] (size_le_length_write v)
    (fun c hc => by simp at hc)
  simp only [List.append_nil] at h
  simp only [deserialize, serialize, h]

end Json

/-! ### The literal `common` -/

/-- C1: `common` is an object with exactly the seventeen top-level fields of
the field table, in declaration order, and `headings` is an object with
exactly the two fields `fontFamily` and `sizes`. -/
theorem common_field_names :
    common.keys? = some ["primaryShade", "loader", "white", "black", "defaultRadius",
      "primaryColor", "lineHeight", "fontFamily", "shadows", "fontSizes", "radius",
      "spacing", "breakpoints", "headings", "other", "datesLocale", "fn"] ∧
    (common.keys?.map List.length) = some 17 ∧
    keysOf "headings" = some ["fontFamily", "sizes"] := by
  refine ⟨rfl, rfl, ?_⟩
  decide

/-- C2: each of the five size-keyed mappings of `common` has the key list
`[xs, sm, md, lg, xl]` in declaration order, and that list has five distinct
entries, so every size key is present once and there is no other key. -/
theorem size_keyed_mappings_keys :
    keysOf "shadows" = some sizeKeys ∧ keysOf "fontSizes" = some sizeKeys ∧
    keysOf "radius" = some sizeKeys ∧ keysOf "spacing" = some sizeKeys ∧
    keysOf "breakpoints" = some sizeKeys ∧
    sizeKeys = ["xs", "sm", "md", "lg", "xl"] ∧ sizeKeys.Nodup ∧ sizeKeys.length = 5 := by
  refine ⟨?_, ?_, ?_, ?_, ?_, rfl, ?_, rfl⟩ <;> decide

/-- C3: `fontSizes`, `radius`, `spacing` and `breakpoints` of `common` hold
the stated tables, `spacing` is the same value as `radius`, and every entry is
an integral number (the integer view of each table is defined). -/
theorem numeric_tables :
    common.get? "fontSizes" = some (.obj [("xs", .num 12), ("sm", .num 14), ("md", .num 16),
      ("lg", .num 18), ("xl", .num 20)]) ∧
    common.get? "radius" = some (.obj [("xs", .num 5), ("sm", .num 8), ("md", .num 13),
      ("lg", .num 21), ("xl", .num 34)]) ∧
    common.get? "spacing" = common.get? "radius" ∧
    common.get? "breakpoints" = some (.obj [("xs", .num 576), ("sm", .num 768),
      ("md", .num 992), ("lg", .num 1200), ("xl", .num 1400)]) ∧
    intEntriesOf "fontSizes" = some [("xs", 12), ("sm", 14), ("md", 16), ("lg", 18), ("xl", 20)] ∧
    intEntriesOf "radius" = some [("xs", 5), ("sm", 8), ("md", 13), ("lg", 21), ("xl", 34)] ∧
    intEntriesOf "spacing" = some [("xs", 5), ("sm", 8), ("md", 13), ("lg", 21), ("xl", 34)] ∧
    intEntriesOf "breakpoints" =
      some [("xs", 576), ("sm", 768), ("md", 992), ("lg", 1200), ("xl", 1400)] := by
  refine ⟨rfl, rfl, rfl, rfl, ?_, ?_, ?_, ?_⟩ <;> decide

/-- C4: in `common`, `primaryShade` is the integer 6, `loader` is the string
"oval", `white` is "#fff", `black` is "#303030" and `datesLocale` is "en". -/
theorem scalar_fields :
    (common.get? "primaryShade").bind JsVal.asInt? = some 6 ∧
    (common.get? "loader").bind JsVal.asStr? = some "oval" ∧
    (common.get? "white").bind JsVal.asStr? = some "#fff" ∧
    (common.get? "black").bind JsVal.asStr? = some "#303030" ∧
    (common.get? "datesLocale").bind JsVal.asStr? = some "en" := by
  refine ⟨?_, ?_, ?_, ?_, ?_⟩ <;> decide

/-- C5: `common.headings.sizes` is the object with the six keys h1..h6 in
that order, each mapped to an object whose single field `fontSize` holds the
stated string. -/
theorem heading_sizes :
    common.getPath? ["headings", "sizes"] = some (.obj [
      ("h1", .obj [("fontSize", .str "1.5rem")]),
      ("h2", .obj [("fontSize", .str "1.3333rem")]),
      ("h3", .obj [("fontSize", .str "1.125rem")]),
      ("h4", .obj [("fontSize", .str "1rem")]),
      ("h5", .obj [("fontSize", .str "0.9375rem")]),
      ("h6", .obj [("fontSize", .str "0.875rem")])]) ∧
    (common.getPath? ["headings", "sizes"]).bind JsVal.keys? =
      some ["h1", "h2", "h3", "h4", "h5", "h6"] := by
  refine ⟨rfl, ?_⟩
  decide

/-- C6: `common.defaultRadius` is the string "xs", it is one of the keys of
`common.radius`, and the lookup of `radius` at it succeeds with the integer 5,
which is the value at key xs. -/
theorem defaultRadius_is_radius_key :
    (common.get? "defaultRadius").bind JsVal.asStr? = some "xs" ∧
    (∃ ks, keysOf "radius" = some ks ∧ "xs" ∈ ks) ∧
    defaultRadiusValue.bind JsVal.asInt? = some 5 ∧
    defaultRadiusValue = common.getPath? ["radius", "xs"] := by
  refine ⟨by decide, ⟨sizeKeys, by decide, by decide⟩, by decide, rfl⟩

/-- C7: `other` and `fn` are both fields of `common`, and each holds the
object with no keys. -/
theorem other_and_fn_empty :
    common.get? "other" = some (.obj []) ∧ common.get? "fn" = some (.obj []) ∧
    keysOf "other" = some [] ∧ keysOf "fn" = some [] := by
  refine ⟨rfl, rfl, ?_, ?_⟩ <;> decide

/-- C10: `fontSizes`, `radius`, `spacing` and `breakpoints` of `common` are
strictly increasing along xs, sm, md, lg, xl, with positive values. -/
theorem numeric_tables_strictly_increasing :
    StrictlyIncreasing "fontSizes" ∧ StrictlyIncreasing "radius" ∧
    StrictlyIncreasing "spacing" ∧ StrictlyIncreasing "breakpoints" := by
  refine ⟨⟨[("xs", 12), ("sm", 14), ("md", 16), ("lg", 18), ("xl", 20)], ?_, ?_, ?_, ?_⟩,
    ⟨[("xs", 5), ("sm", 8), ("md", 13), ("lg", 21), ("xl", 34)], ?_, ?_, ?_, ?_⟩,
    ⟨[("xs", 5), ("sm", 8), ("md", 13), ("lg", 21), ("xl", 34)], ?_, ?_, ?_, ?_⟩,
    ⟨[("xs", 576), ("sm", 768), ("md", 992), ("lg", 1200), ("xl", 1400)], ?_, ?_, ?_, ?_⟩⟩ <;>
    decide

/-- C8: serializing `common` to JSON text and deserializing that text gives
back `common`, so every field, the key order and every literal are those of
the source; the non-integer `lineHeight` is written as `1.5` and the two empty
objects `other` and `fn` as a pair of braces, and each reads back as itself. -/
theorem common_json_round_trip :
    Json.deserialize (Json.serialize common) = some common ∧
    (common.get? "lineHeight").map Json.serialize = some "1.5" ∧
    Json.deserialize "1.5" = common.get? "lineHeight" ∧
    (common.get? "other").map Json.serialize = some "\x7b\x7d" ∧
    (common.get? "fn").map Json.serialize = some "\x7b\x7d" ∧
    Json.deserialize "\x7b\x7d" = common.get? "other" :=
  ⟨Json.deserialize_serialize common, by decide, by rfl, by decide, by decide, by rfl⟩

/-- C9 (as stated, refuted): after the consumer assignment
`common.primaryShade = 7` a read of `primaryShade` gives 7 where the literal
has 6, and after `common.headings.sizes.h1.fontSize = "2rem"` the nested field
reads "2rem"; so some action changes what a reader sees. -/
theorem common_not_read_only :
    ((step moduleBinding (.assign ["primaryShade"] (.num 7))).bind fun b =>
      (b.value.view.get? "primaryShade").bind JsVal.asInt?) = some 7 ∧
    (moduleBinding.value.view.get? "primaryShade").bind JsVal.asInt? = some 6 ∧
    ((step moduleBinding (.assign ["headings", "sizes", "h1", "fontSize"]
      (.str "2rem"))).bind fun b =>
        (b.value.view.getPath? ["headings", "sizes", "h1", "fontSize"]).bind
          JsVal.asStr?) = some "2rem" ∧
    ¬ ReadOnly moduleBinding := by
  have h7 : ((step moduleBinding (.assign ["primaryShade"] (.num 7))).bind fun b =>
      (b.value.view.get? "primaryShade").bind JsVal.asInt?) = some 7 := by decide
  refine ⟨h7, by decide, by decide, ?_⟩
  intro h
  cases hs : step moduleBinding (.assign ["primaryShade"] (.num 7)) with
  | none =>
    rw [hs] at h7
    exact absurd h7 (by simp)
  | some b' =>
    rw [hs] at h7
    have hv := h _ b' hs
    simp only [Option.some_bind] at h7
    rw [hv] at h7
    revert h7
    decide

/-- C9 (amended): the module body leaves a `const` binding whose object reads
as the literal `common`, and every sequence of actions that contains no
property assignment (reads and attempts to rebind `common` only) runs to the
end and leaves the binding, and so every field at every depth, as the module
constructed it. -/
theorem common_unchanged_without_property_assignment (as : List Action)
    (h : ∀ a ∈ as, a.isAssign = false) :
    moduleBinding.isConst = true ∧ moduleBinding.value.view = common ∧
    run moduleBinding as = some moduleBinding ∧
    (run moduleBinding as).map (fun b => b.value.view) = some common := by
  have hrun : run moduleBinding as = some moduleBinding := by
    induction as with
    | nil => rfl
    | cons a as ih =>
      have ha : step moduleBinding a = some moduleBinding := by
        have := h a (List.mem_cons_self a as)
        cases a with
        | read p => rfl
        | rebind w => rfl
        | assign p w => simp [Action.isAssign] at this
      rw [run, ha]
      exact ih fun b hb => h b (List.mem_cons_of_mem a hb)
  refine ⟨rfl, rfl, hrun, ?_⟩
  rw [hrun]
  rfl

/-- C9 (amended), at a concrete sequence: a read followed by an attempt to
rebind `common` leaves the binding as constructed. -/
theorem common_unchanged_witness :
    (∀ a ∈ [Action.read ["radius", "xs"], Action.rebind (.num 0)], a.isAssign = false) ∧
    run moduleBinding [Action.read ["radius", "xs"], Action.rebind (.num 0)] =
      some moduleBinding ∧
    (run moduleBinding [Action.read ["radius", "xs"], Action.rebind (.num 0)]).map
      (fun b => b.value.view) = some common :=
  have h : ∀ a ∈ [Action.read ["radius", "xs"], Action.rebind (.num 0)],
      a.isAssign = false := by
    intro a ha
    simp only [List.mem_cons, List.mem_singleton, List.not_mem_nil, or_false] at ha
    rcases ha with rfl | rfl <;> rfl
  ⟨h, (common_unchanged_without_property_assignment _ h).2.2.1,
    (common_unchanged_without_property_assignment _ h).2.2.2⟩

end Theme
